import Mathlib

/-!
Shallow embedding of `src/ring_buffer.c` (a fixed-capacity ring buffer for
fixed-size elements) together with proofs of its specified properties.

Machine integers: the C code uses `uint32_t` for all ring-buffer fields and
for the index arithmetic.  We model `uint32_t` values as natural numbers
below `U32 = 2^32`, with wraparound subtraction `sub32` and explicit
`% U32` reductions wherever the C arithmetic can wrap.  The backing byte
region and the element source/destination buffers are modelled as
`List Nat` (one entry per byte), and `memcpy` is modelled positionally.
-/

/-- The constant `2^32`, modulus of `uint32_t` arithmetic. -/
def U32 : Nat := 4294967296

theorem U32_eq : U32 = 2 ^ 32 := by norm_num [U32]

/-- Wraparound `uint32_t` subtraction `a - b` for operands already reduced below `U32`:
wraparound (modular) subtraction. -/
def sub32 (a b : Nat) : Nat := (a + U32 - b) % U32

/-- Model of `memcpy(dst + doff, src + soff, cnt)` on byte lists: byte `i` of the
result is `src[soff + (i - doff)]` when `doff ≤ i < doff + cnt`, and
`dst[i]` otherwise.  The result always has the length of `dst` (the C
contract requires the copy to stay in bounds; the bounds are proved, not
assumed, in the theorems below). -/
def memcpy (dst : List Nat) (doff : Nat) (src : List Nat) (soff : Nat) (cnt : Nat) : List Nat :=
  (List.range dst.length).map fun i =>
    if doff ≤ i ∧ i < doff + cnt then src.getD (soff + (i - doff)) 0 else dst.getD i 0

/-- The struct `ring` from `src/ring_buffer.h`.  `buffer` is the borrowed byte
region; `size` (capacity in elements), `mask`, `esize` (element size in
bytes), `head` and `tail` are `uint32_t` fields. -/
structure ring_t where
  buffer : List Nat
  size : Nat
  mask : Nat
  esize : Nat
  head : Nat
  tail : Nat
deriving Repr

/-- Function `ring_buffer_init` from `src/ring_buffer.c:33`.  Returns the resulting
struct state and the C return value (`0` or `-EINVAL = -22`).
`size & (size - 1)`: for `size = 0` the C computes `0 & 0xFFFFFFFF = 0`
and Nat computes `0 &&& 0 = 0`, so truncated subtraction agrees with the
`uint32_t` wraparound on every input. -/
def ring_buffer_init (rb : ring_t) (buf : List Nat) (size esize : Nat) : ring_t × Int :=
  let size := size / esize
  if size &&& (size - 1) ≠ 0 then
    (rb, -22)
  else
    let rb := { rb with buffer := buf, size := size, esize := esize, head := 0, tail := 0 }
    if size < 2 then
      ({ rb with mask := 0 }, -22)
    else
      ({ rb with mask := size - 1 }, 0)

/-- Function `ring_space` from `src/ring_buffer.c:63`: `rb->size - (rb->head - rb->tail)`
in `uint32_t` arithmetic. -/
def ring_space (rb : ring_t) : Nat :=
  sub32 rb.size (sub32 rb.head rb.tail)

/-- Function `ring_used` from `src/ring_buffer.c:75`: `rb->head - rb->tail` in
`uint32_t` arithmetic. -/
def ring_used (rb : ring_t) : Nat :=
  sub32 rb.head rb.tail

/-- The shared prologue of `__ring_put` and `__ring_get`
(`src/ring_buffer.c:82-93` and `125-136`): mask the offset, scale offsets
and lengths from elements to bytes when `esize != 1`, and compute the first
segment length `l = min(len, size - offset)`.  Returns
(byte offset, first segment byte length `l`, total byte length `len`). -/
def copySegs (rb : ring_t) (len offset : Nat) : Nat × Nat × Nat :=
  let size := rb.size
  let esize := rb.esize
  let offset := offset &&& rb.mask
  let p : Nat × Nat × Nat :=
    if esize ≠ 1 then
      (offset * esize % U32, size * esize % U32, len * esize % U32)
    else
      (offset, size, len)
  let offset := p.1
  let size := p.2.1
  let len := p.2.2
  let l := min len (sub32 size offset)
  (offset, l, len)

/-- Function `__ring_put` from `src/ring_buffer.c:80`: copy the first segment to
`buffer + offset` and the wrapped remainder to the start of the region. -/
def __ring_put (rb : ring_t) (src : List Nat) (len offset : Nat) : ring_t :=
  let s := copySegs rb len offset
  let o := s.1
  let l := s.2.1
  let lenB := s.2.2
  let buf := memcpy rb.buffer o src 0 l
  let buf := memcpy buf 0 src l (sub32 lenB l)
  { rb with buffer := buf }

/-- Function `ring_put` from `src/ring_buffer.c:110`: clamp `len` to the free space,
copy, advance `head`.  Returns the new state and the returned count. -/
def ring_put (rb : ring_t) (src : List Nat) (len : Nat) : ring_t × Nat :=
  let l := ring_space rb
  let len := min len l
  let rb := __ring_put rb src len rb.head
  let rb := { rb with head := (rb.head + len) % U32 }
  (rb, len)

/-- Function `__ring_get` from `src/ring_buffer.c:123`: copy the first segment from
`buffer + offset` into `dst`, and the wrapped remainder from the start of
the region into `dst + l`.  Returns the destination buffer's new contents. -/
def __ring_get (rb : ring_t) (dst : List Nat) (len offset : Nat) : List Nat :=
  let s := copySegs rb len offset
  let o := s.1
  let l := s.2.1
  let lenB := s.2.2
  let dst := memcpy dst 0 rb.buffer o l
  let dst := memcpy dst l rb.buffer 0 (sub32 lenB l)
  dst

/-- Function `ring_get` from `src/ring_buffer.c:152`: clamp `len` to the used count,
copy out, advance `tail`.  Returns the new state, the destination buffer's
new contents, and the returned count. -/
def ring_get (rb : ring_t) (dst : List Nat) (len : Nat) : ring_t × List Nat × Nat :=
  let l := ring_used rb
  let len := min l len
  let out := __ring_get rb dst len rb.tail
  let rb := { rb with tail := (rb.tail + len) % U32 }
  (rb, out, len)

/-- Validity of an initialized ring buffer: exactly the facts established by
a successful `ring_buffer_init` (capacity a power of two, `≥ 2`,
`mask = size - 1`, a positive element size, the scaled region fitting in a
`uint32_t` byte count, `head`/`tail` reduced below `U32`, at most `size`
elements stored, and a backing region of at least `size * esize` bytes). -/
structure Valid (rb : ring_t) : Prop where
  two_le_size : 2 ≤ rb.size
  size_pow2 : ∃ k, rb.size = 2 ^ k
  mask_eq : rb.mask = rb.size - 1
  esize_pos : 1 ≤ rb.esize
  bytes_lt : rb.size * rb.esize < U32
  head_lt : rb.head < U32
  tail_lt : rb.tail < U32
  used_le : sub32 rb.head rb.tail ≤ rb.size
  buf_len : rb.size * rb.esize ≤ rb.buffer.length

/-- One external call to the ring buffer, as issued by a caller:
a `put` of a source byte list with a requested element count, or a `get`
with a requested element count (the destination does not affect the ring
state). -/
inductive Op where
  | put : List Nat → Nat → Op
  | get : Nat → Op

/-- The ring state after one call. -/
def step (rb : ring_t) (op : Op) : ring_t :=
  match op with
  | .put src len => (ring_put rb src len).1
  | .get len => (ring_get rb [] len).1

/-- The ring state after a sequence of calls. -/
def run (rb : ring_t) (ops : List Op) : ring_t :=
  ops.foldl step rb

/-- A concrete initialized ring: 8-byte region, 2-byte elements,
capacity 4 (the configuration of the repository's test driver). -/
def rbW : ring_t :=
  { buffer := [0, 0, 0, 0, 0, 0, 0, 0], size := 4, mask := 3, esize := 2
    head := 0, tail := 0 }

/-- State `rbW` with `head` and `tail` forced next to the `uint32_t` maximum,
holding 3 elements across the overflow boundary: `head = 2^32 + 2`,
`tail = 2^32 - 1` as logical counters. -/
def rbOverW : ring_t :=
  { buffer := [0, 0, 0, 0, 0, 0, 0, 0], size := 4, mask := 3, esize := 2
    head := 2, tail := 4294967295 }

/-- State `rbW` with `head = tail = 3`: an empty ring whose next bulk copy must
split across the wraparound boundary. -/
def rbWrapW : ring_t :=
  { buffer := [0, 0, 0, 0, 0, 0, 0, 0], size := 4, mask := 3, esize := 2
    head := 3, tail := 3 }

/-- An uninitialized struct with arbitrary junk in its fields, used to
observe what a failing `ring_buffer_init` leaves behind. -/
def rbJunk : ring_t :=
  { buffer := [7], size := 9, mask := 5, esize := 9, head := 9, tail := 9 }

/-! ### Basic arithmetic and `memcpy` lemmas -/

theorem sub32_lt (a b : Nat) : sub32 a b < U32 := by
  simp only [sub32, U32]; omega

theorem sub32_of_le {a b : Nat} (hb : b ≤ a) (ha : a < U32) : sub32 a b = a - b := by
  simp only [sub32, U32] at *; omega

theorem length_memcpy (dst : List Nat) (doff : Nat) (src : List Nat) (soff cnt : Nat) :
    (memcpy dst doff src soff cnt).length = dst.length := by
  simp [memcpy]

theorem getD_memcpy (dst : List Nat) (doff : Nat) (src : List Nat) (soff cnt : Nat)
    {p : Nat} (hp : p < dst.length) :
    (memcpy dst doff src soff cnt).getD p 0 =
      if doff ≤ p ∧ p < doff + cnt then src.getD (soff + (p - doff)) 0
      else dst.getD p 0 := by
  simp [memcpy, List.getD_eq_getElem?_getD, List.getElem?_map, List.getElem?_range hp]

theorem memcpy_cnt_zero (dst : List Nat) (doff : Nat) (src : List Nat) (soff : Nat) :
    memcpy dst doff src soff 0 = dst := by
  apply List.ext_getElem
  · simp [memcpy]
  · intro i h1 h2
    have := getD_memcpy dst doff src soff 0 (p := i) h2
    rw [Nat.add_zero, if_neg (by omega)] at this
    rwa [List.getD_eq_getElem?_getD, List.getD_eq_getElem?_getD,
        List.getElem?_eq_getElem h1, List.getElem?_eq_getElem h2,
        Option.getD_some, Option.getD_some] at this

theorem eq_of_getD_eq {l1 l2 : List Nat} (hl : l1.length = l2.length)
    (h : ∀ p, p < l1.length → l1.getD p 0 = l2.getD p 0) : l1 = l2 := by
  apply List.ext_getElem hl
  intro i h1 h2
  have := h i h1
  rwa [List.getD_eq_getElem?_getD, List.getD_eq_getElem?_getD,
      List.getElem?_eq_getElem h1, List.getElem?_eq_getElem h2,
      Option.getD_some, Option.getD_some] at this

theorem size_lt_U32 {rb : ring_t} (hv : Valid rb) : rb.size < U32 :=
  lt_of_le_of_lt (Nat.le_mul_of_pos_right _ hv.esize_pos) hv.bytes_lt

theorem ring_space_eq {rb : ring_t} (hv : Valid rb) :
    ring_space rb = rb.size - ring_used rb := by
  unfold ring_space ring_used
  exact sub32_of_le hv.used_le (size_lt_U32 hv)

theorem ring_used_le {rb : ring_t} (hv : Valid rb) : ring_used rb ≤ rb.size :=
  hv.used_le

theorem ring_space_le {rb : ring_t} (hv : Valid rb) : ring_space rb ≤ rb.size := by
  rw [ring_space_eq hv]; omega

/-- Under validity, the masked/scaled quantities of the copy prologue take
their mathematical values: no `uint32_t` reduction fires. -/
theorem copySegs_eq (rb : ring_t) (hv : Valid rb) (len offset : Nat)
    (hlen : len ≤ rb.size) :
    copySegs rb len offset =
      ((offset &&& rb.mask) * rb.esize,
       min (len * rb.esize) (rb.size * rb.esize - (offset &&& rb.mask) * rb.esize),
       len * rb.esize) := by
  have hmask : (offset &&& rb.mask) + 1 ≤ rb.size := by
    have h1 : offset &&& rb.mask ≤ rb.mask := Nat.and_le_right
    have h2 := hv.mask_eq
    have h3 := hv.two_le_size
    omega
  have hoB : (offset &&& rb.mask) * rb.esize + rb.esize ≤ rb.size * rb.esize := by
    have := mul_le_mul_right' hmask rb.esize
    rwa [Nat.succ_mul] at this
  have hlenB : len * rb.esize ≤ rb.size * rb.esize := mul_le_mul_right' hlen _
  have hbytes := hv.bytes_lt
  have hesize := hv.esize_pos
  have hszlt := size_lt_U32 hv
  unfold copySegs
  by_cases he : rb.esize = 1
  · rw [he, mul_one, mul_one] at hoB hlenB
    simp only [he, ne_eq, not_true_eq_false, if_false, mul_one]
    rw [sub32_of_le (by omega) (by omega)]
  · simp only [ne_eq, he, not_false_eq_true, if_true]
    rw [Nat.mod_eq_of_lt (by omega), Nat.mod_eq_of_lt (by omega),
        Nat.mod_eq_of_lt (by omega), sub32_of_le (by omega) (by omega)]

/-- Bounds on the two copy segments: the first ends at or before the end of
the region, the wrapped remainder ends at or before the offset. -/
theorem copySegs_bounds (rb : ring_t) (hv : Valid rb) (len offset : Nat)
    (hlen : len ≤ rb.size) :
    (copySegs rb len offset).1 + (copySegs rb len offset).2.1 ≤ rb.size * rb.esize ∧
    (copySegs rb len offset).2.2 - (copySegs rb len offset).2.1 ≤ (copySegs rb len offset).1 ∧
    (copySegs rb len offset).2.1 ≤ (copySegs rb len offset).2.2 ∧
    (copySegs rb len offset).2.2 = len * rb.esize ∧
    (copySegs rb len offset).2.2 ≤ rb.size * rb.esize := by
  have hmask : (offset &&& rb.mask) + 1 ≤ rb.size := by
    have h1 : offset &&& rb.mask ≤ rb.mask := Nat.and_le_right
    have h2 := hv.mask_eq
    have h3 := hv.two_le_size
    omega
  have hoB : (offset &&& rb.mask) * rb.esize + rb.esize ≤ rb.size * rb.esize := by
    have := mul_le_mul_right' hmask rb.esize
    rwa [Nat.succ_mul] at this
  have hlenB : len * rb.esize ≤ rb.size * rb.esize := mul_le_mul_right' hlen _
  rw [copySegs_eq rb hv len offset hlen]
  refine ⟨?_, ?_, ?_, rfl, hlenB⟩ <;> simp only <;> omega

theorem put_buffer_length (rb : ring_t) (src : List Nat) (len offset : Nat) :
    (__ring_put rb src len offset).buffer.length = rb.buffer.length := by
  simp [__ring_put, length_memcpy]

theorem get_output_length (rb : ring_t) (dst : List Nat) (len offset : Nat) :
    (__ring_get rb dst len offset).length = dst.length := by
  simp [__ring_get, length_memcpy]

/-- Pointwise description of the region after `__ring_put`: bytes below the
wrapped remainder come from the tail of `src`, bytes in the first segment
come from the head of `src`, and all other bytes are untouched. -/
theorem getD_put_buffer (rb : ring_t) (hv : Valid rb) (src : List Nat)
    (len offset : Nat) (hlen : len ≤ rb.size) {p : Nat} (hp : p < rb.buffer.length) :
    (__ring_put rb src len offset).buffer.getD p 0 =
      if p < len * rb.esize -
            min (len * rb.esize)
              (rb.size * rb.esize - (offset &&& rb.mask) * rb.esize) then
        src.getD
          (min (len * rb.esize)
            (rb.size * rb.esize - (offset &&& rb.mask) * rb.esize) + p) 0
      else if (offset &&& rb.mask) * rb.esize ≤ p ∧
          p < (offset &&& rb.mask) * rb.esize +
            min (len * rb.esize)
              (rb.size * rb.esize - (offset &&& rb.mask) * rb.esize) then
        src.getD (p - (offset &&& rb.mask) * rb.esize) 0
      else rb.buffer.getD p 0 := by
  have hlenB : len * rb.esize ≤ rb.size * rb.esize := mul_le_mul_right' hlen _
  have hbytes := hv.bytes_lt
  unfold __ring_put
  rw [copySegs_eq rb hv len offset hlen]
  simp only
  rw [sub32_of_le (by omega) (by omega)]
  rw [getD_memcpy _ _ _ _ _ (by rw [length_memcpy]; exact hp),
      getD_memcpy _ _ _ _ _ hp]
  simp only [Nat.zero_add, Nat.sub_zero, Nat.zero_le, true_and]

/-- Pointwise description of the destination after `__ring_get`: the wrapped
remainder of the output comes from the start of the region, the first
segment from the region at the masked offset, and bytes of `dst` past the
request are untouched. -/
theorem getD_get_output (rb : ring_t) (hv : Valid rb) (dst : List Nat)
    (len offset : Nat) (hlen : len ≤ rb.size) {p : Nat} (hp : p < dst.length) :
    (__ring_get rb dst len offset).getD p 0 =
      if min (len * rb.esize)
            (rb.size * rb.esize - (offset &&& rb.mask) * rb.esize) ≤ p ∧
          p < min (len * rb.esize)
              (rb.size * rb.esize - (offset &&& rb.mask) * rb.esize) +
            (len * rb.esize -
              min (len * rb.esize)
                (rb.size * rb.esize - (offset &&& rb.mask) * rb.esize)) then
        rb.buffer.getD
          (p - min (len * rb.esize)
            (rb.size * rb.esize - (offset &&& rb.mask) * rb.esize)) 0
      else if p < min (len * rb.esize)
            (rb.size * rb.esize - (offset &&& rb.mask) * rb.esize) then
        rb.buffer.getD ((offset &&& rb.mask) * rb.esize + p) 0
      else dst.getD p 0 := by
  have hlenB : len * rb.esize ≤ rb.size * rb.esize := mul_le_mul_right' hlen _
  have hbytes := hv.bytes_lt
  unfold __ring_get
  rw [copySegs_eq rb hv len offset hlen]
  simp only
  rw [sub32_of_le (by omega) (by omega)]
  rw [getD_memcpy _ _ _ _ _ (by rw [length_memcpy]; exact hp),
      getD_memcpy _ _ _ _ _ hp]
  simp only [Nat.zero_add, Nat.sub_zero, Nat.zero_le, true_and]

/-! ### Projections of `ring_put` and `ring_get` -/

theorem ring_put_count (rb : ring_t) (src : List Nat) (len : Nat) :
    (ring_put rb src len).2 = min len (ring_space rb) := rfl

theorem ring_put_head (rb : ring_t) (src : List Nat) (len : Nat) :
    (ring_put rb src len).1.head = (rb.head + min len (ring_space rb)) % U32 := rfl

theorem ring_put_tail (rb : ring_t) (src : List Nat) (len : Nat) :
    (ring_put rb src len).1.tail = rb.tail := rfl

theorem ring_put_size (rb : ring_t) (src : List Nat) (len : Nat) :
    (ring_put rb src len).1.size = rb.size := rfl

theorem ring_put_mask (rb : ring_t) (src : List Nat) (len : Nat) :
    (ring_put rb src len).1.mask = rb.mask := rfl

theorem ring_put_esize (rb : ring_t) (src : List Nat) (len : Nat) :
    (ring_put rb src len).1.esize = rb.esize := rfl

theorem ring_put_buffer (rb : ring_t) (src : List Nat) (len : Nat) :
    (ring_put rb src len).1.buffer =
      (__ring_put rb src (min len (ring_space rb)) rb.head).buffer := rfl

theorem ring_get_count (rb : ring_t) (dst : List Nat) (len : Nat) :
    (ring_get rb dst len).2.2 = min (ring_used rb) len := rfl

theorem ring_get_tail (rb : ring_t) (dst : List Nat) (len : Nat) :
    (ring_get rb dst len).1.tail = (rb.tail + min (ring_used rb) len) % U32 := rfl

theorem ring_get_head (rb : ring_t) (dst : List Nat) (len : Nat) :
    (ring_get rb dst len).1.head = rb.head := rfl

theorem ring_get_size (rb : ring_t) (dst : List Nat) (len : Nat) :
    (ring_get rb dst len).1.size = rb.size := rfl

theorem ring_get_mask (rb : ring_t) (dst : List Nat) (len : Nat) :
    (ring_get rb dst len).1.mask = rb.mask := rfl

theorem ring_get_esize (rb : ring_t) (dst : List Nat) (len : Nat) :
    (ring_get rb dst len).1.esize = rb.esize := rfl

theorem ring_get_buffer (rb : ring_t) (dst : List Nat) (len : Nat) :
    (ring_get rb dst len).1.buffer = rb.buffer := rfl

theorem ring_get_out (rb : ring_t) (dst : List Nat) (len : Nat) :
    (ring_get rb dst len).2.1 = __ring_get rb dst (min (ring_used rb) len) rb.tail := rfl

/-! ### Validity preservation -/

theorem valid_put (rb : ring_t) (hv : Valid rb) (src : List Nat) (len : Nat) :
    Valid (ring_put rb src len).1 := by
  have hszlt := size_lt_U32 hv
  refine ⟨hv.two_le_size, hv.size_pow2, hv.mask_eq, hv.esize_pos, hv.bytes_lt, ?_, hv.tail_lt,
    ?_, ?_⟩
  · show (rb.head + min len (ring_space rb)) % U32 < U32
    exact Nat.mod_lt _ (by norm_num [U32])
  · show sub32 ((rb.head + min len (ring_space rb)) % U32) rb.tail ≤ rb.size
    have h1 := hv.head_lt
    have h2 := hv.tail_lt
    have h3 := hv.used_le
    simp only [ring_space, ring_used, sub32, U32] at *
    omega
  · show rb.size * rb.esize ≤ (ring_put rb src len).1.buffer.length
    rw [ring_put_buffer, put_buffer_length]
    exact hv.buf_len

theorem valid_get (rb : ring_t) (hv : Valid rb) (dst : List Nat) (len : Nat) :
    Valid (ring_get rb dst len).1 := by
  have hszlt := size_lt_U32 hv
  refine ⟨hv.two_le_size, hv.size_pow2, hv.mask_eq, hv.esize_pos, hv.bytes_lt, hv.head_lt,
    ?_, ?_, hv.buf_len⟩
  · show (rb.tail + min (ring_used rb) len) % U32 < U32
    exact Nat.mod_lt _ (by norm_num [U32])
  · show sub32 rb.head ((rb.tail + min (ring_used rb) len) % U32) ≤ rb.size
    have h1 := hv.head_lt
    have h2 := hv.tail_lt
    have h3 := hv.used_le
    simp only [ring_used, sub32, U32] at *
    omega

/-! ### The power-of-two test `size & (size - 1) == 0` -/

theorem testBit_pred_of_testBit {n b : Nat} (hb : n.testBit b = true)
    (hlow : 1 ≤ n % 2 ^ b) : (n - 1).testBit b = true := by
  rw [Nat.testBit_to_div_mod] at hb ⊢
  have h2 : 0 < 2 ^ b := Nat.two_pow_pos b
  have hmod := Nat.div_add_mod n (2 ^ b)
  have hmlt : n % 2 ^ b < 2 ^ b := Nat.mod_lt _ h2
  have hdiv : (n - 1) / 2 ^ b = n / 2 ^ b := by
    have e1 : n - 1 = (n % 2 ^ b - 1) + 2 ^ b * (n / 2 ^ b) := by omega
    rw [e1, Nat.add_mul_div_left _ _ h2, Nat.div_eq_of_lt (by omega), Nat.zero_add]
  rwa [hdiv]

theorem no_two_bits_of_and_pred {n a b : Nat} (hab : a < b)
    (h : n &&& (n - 1) = 0) (ha : n.testBit a = true) (hb : n.testBit b = true) :
    False := by
  have hlow : 1 ≤ n % 2 ^ b := by
    have h1 : (n % 2 ^ b).testBit a = true := by
      rw [Nat.testBit_mod_two_pow]
      simp [hab, ha]
    have h2 := Nat.testBit_implies_ge h1
    have h3 : 0 < 2 ^ a := Nat.two_pow_pos a
    omega
  have hb1 := testBit_pred_of_testBit hb hlow
  have hcontra : (n &&& (n - 1)).testBit b = true := by
    rw [Nat.testBit_and, hb, hb1]
    rfl
  rw [h, Nat.zero_testBit] at hcontra
  exact Bool.false_ne_true hcontra

theorem pow2_of_and_pred {n : Nat} (h0 : n ≠ 0) (h : n &&& (n - 1) = 0) :
    ∃ k, n = 2 ^ k := by
  obtain ⟨i, hi⟩ := Nat.ne_zero_implies_bit_true h0
  have huniq : ∀ j, n.testBit j = true → j = i := by
    intro j hj
    rcases Nat.lt_trichotomy i j with hij | heq | hij
    · exact (no_two_bits_of_and_pred hij h hi hj).elim
    · exact heq.symm
    · exact (no_two_bits_of_and_pred hij h hj hi).elim
  refine ⟨i, Nat.eq_of_testBit_eq fun j => ?_⟩
  rw [Nat.testBit_two_pow]
  cases hnj : n.testBit j with
  | true => simp [(huniq j hnj).symm]
  | false =>
    rcases eq_or_ne i j with rfl | hne
    · rw [hnj] at hi
      exact absurd hi Bool.false_ne_true
    · simp [hne]

theorem and_pred_eq_zero_iff (n : Nat) :
    n &&& (n - 1) = 0 ↔ n = 0 ∨ ∃ k, n = 2 ^ k := by
  constructor
  · intro h
    rcases eq_or_ne n 0 with rfl | h0
    · exact Or.inl rfl
    · exact Or.inr (pow2_of_and_pred h0 h)
  · rintro (rfl | ⟨k, rfl⟩)
    · rfl
    · rw [Nat.and_pow_two_sub_one_eq_mod, Nat.mod_self]

/-! ### Initialization lemmas -/

theorem init_ok_iff (rb0 : ring_t) (buf : List Nat) (s e : Nat) :
    (ring_buffer_init rb0 buf s e).2 = 0 ↔ (∃ k, s / e = 2 ^ k) ∧ 2 ≤ s / e := by
  unfold ring_buffer_init
  by_cases h1 : s / e &&& (s / e - 1) ≠ 0
  · rw [if_pos h1]
    simp only [ne_eq, and_pred_eq_zero_iff, not_or] at h1
    constructor
    · intro h
      exact absurd h (by norm_num)
    · rintro ⟨hp, _⟩
      exact absurd hp h1.2
  · rw [if_neg h1]
    simp only [ne_eq, not_not, and_pred_eq_zero_iff] at h1
    by_cases h2 : s / e < 2
    · rw [if_pos h2]
      constructor
      · intro h
        exact absurd h (by norm_num)
      · rintro ⟨_, hge⟩
        omega
    · rw [if_neg h2]
      refine ⟨fun _ => ⟨?_, by omega⟩, fun _ => rfl⟩
      rcases h1 with h0 | hp
      · omega
      · exact hp

theorem init_ok_state (rb0 : ring_t) (buf : List Nat) (s e : Nat)
    (hok : (ring_buffer_init rb0 buf s e).2 = 0) :
    (ring_buffer_init rb0 buf s e).1 =
      { buffer := buf, size := s / e, mask := s / e - 1, esize := e
        head := 0, tail := 0 } := by
  unfold ring_buffer_init at hok ⊢
  by_cases h1 : s / e &&& (s / e - 1) ≠ 0
  · rw [if_pos h1] at hok
    exact absurd hok (by norm_num)
  · rw [if_neg h1] at hok ⊢
    by_cases h2 : s / e < 2
    · rw [if_pos h2] at hok
      exact absurd hok (by norm_num)
    · rw [if_neg h2]

theorem init_valid (rb0 : ring_t) (buf : List Nat) (s e : Nat)
    (he : 1 ≤ e) (hs : s < U32) (hbuf : s ≤ buf.length)
    (hok : (ring_buffer_init rb0 buf s e).2 = 0) :
    Valid (ring_buffer_init rb0 buf s e).1 := by
  obtain ⟨hp, hge⟩ := (init_ok_iff rb0 buf s e).1 hok
  rw [init_ok_state rb0 buf s e hok]
  have hmul : s / e * e ≤ s := Nat.div_mul_le_self s e
  refine ⟨hge, hp, rfl, he, show s / e * e < U32 by omega, by norm_num [U32],
    by norm_num [U32], ?_, show s / e * e ≤ buf.length by omega⟩
  simp [sub32, U32]

/-! ### Capacity accounting -/

theorem space_add_used {rb : ring_t} (hv : Valid rb) :
    ring_space rb + ring_used rb = rb.size := by
  rw [ring_space_eq hv]
  have := hv.used_le
  simp only [ring_used] at *
  omega

theorem used_after_put (rb : ring_t) (hv : Valid rb) (src : List Nat) (len : Nat) :
    ring_used (ring_put rb src len).1 = ring_used rb + min len (ring_space rb) := by
  show sub32 ((rb.head + min len (ring_space rb)) % U32) rb.tail = _
  have h1 := hv.head_lt
  have h2 := hv.tail_lt
  have h3 := hv.used_le
  have h4 := size_lt_U32 hv
  simp only [ring_space, ring_used, sub32, U32] at *
  omega

theorem used_after_get (rb : ring_t) (hv : Valid rb) (dst : List Nat) (len : Nat) :
    ring_used (ring_get rb dst len).1 = ring_used rb - min (ring_used rb) len := by
  show sub32 rb.head ((rb.tail + min (ring_used rb) len) % U32) = _
  have h1 := hv.head_lt
  have h2 := hv.tail_lt
  have h3 := hv.used_le
  have h4 := size_lt_U32 hv
  simp only [ring_used, sub32, U32] at *
  omega

theorem valid_step (rb : ring_t) (hv : Valid rb) (op : Op) : Valid (step rb op) := by
  cases op with
  | put src len => exact valid_put rb hv src len
  | get len => exact valid_get rb hv [] len

theorem valid_run (rb : ring_t) (hv : Valid rb) (ops : List Op) : Valid (run rb ops) := by
  induction ops generalizing rb with
  | nil => exact hv
  | cons op ops ih => exact ih _ (valid_step rb hv op)

theorem copySegs_zero (rb : ring_t) (offset : Nat) :
    (copySegs rb 0 offset).2.1 = 0 ∧ (copySegs rb 0 offset).2.2 = 0 := by
  unfold copySegs
  by_cases he : rb.esize ≠ 1 <;> simp [he]

theorem sub32_zero : sub32 0 0 = 0 := by simp [sub32, U32]

theorem put_len_zero (rb : ring_t) (src : List Nat) (offset : Nat) :
    (__ring_put rb src 0 offset).buffer = rb.buffer := by
  obtain ⟨h1, h2⟩ := copySegs_zero rb offset
  simp only [__ring_put]
  rw [h1, h2, sub32_zero, memcpy_cnt_zero, memcpy_cnt_zero]

theorem get_len_zero (rb : ring_t) (dst : List Nat) (offset : Nat) :
    __ring_get rb dst 0 offset = dst := by
  obtain ⟨h1, h2⟩ := copySegs_zero rb offset
  simp only [__ring_get]
  rw [h1, h2, sub32_zero, memcpy_cnt_zero, memcpy_cnt_zero]

/-- The ring `rbW` is a valid initialized ring. -/
theorem rbW_valid : Valid rbW :=
  ⟨by decide, ⟨2, rfl⟩, rfl, by decide, by decide, by decide, by decide, by decide, by decide⟩

/-- The ring `rbWrapW` is a valid initialized ring (empty, write position 3 of 4). -/
theorem rbWrapW_valid : Valid rbWrapW :=
  ⟨by decide, ⟨2, rfl⟩, rfl, by decide, by decide, by decide, by decide, by decide, by decide⟩

/-- The ring `rbOverW` is a valid initialized ring (3 elements stored across the
`uint32_t` overflow boundary). -/
theorem rbOverW_valid : Valid rbOverW :=
  ⟨by decide, ⟨2, rfl⟩, rfl, by decide, by decide, by decide, by decide, by decide, by decide⟩

attribute [ext] ring_t

/-! ## Claims -/

/-- Claim C1: for every initialized ring buffer and every put call, the
returned count equals `min(requested_count, space(buffer))` at call time,
`head` is advanced by exactly that count (in `uint32_t` arithmetic), and the
count never exceeds the requested count nor the free space. -/
theorem C1_put_postcondition (rb : ring_t) (hv : Valid rb) (src : List Nat) (len : Nat) :
    (ring_put rb src len).2 = min len (ring_space rb) ∧
    (ring_put rb src len).1.head = (rb.head + (ring_put rb src len).2) % U32 ∧
    (ring_put rb src len).2 ≤ len ∧
    (ring_put rb src len).2 ≤ ring_space rb :=
  ⟨rfl, rfl, Nat.min_le_left _ _, Nat.min_le_right _ _⟩

theorem C1_put_postcondition_witness :
    (ring_put rbW [1, 2, 3, 4] 2).2 = min 2 (ring_space rbW) ∧
    (ring_put rbW [1, 2, 3, 4] 2).1.head = (rbW.head + (ring_put rbW [1, 2, 3, 4] 2).2) % U32 ∧
    (ring_put rbW [1, 2, 3, 4] 2).2 ≤ 2 ∧
    (ring_put rbW [1, 2, 3, 4] 2).2 ≤ ring_space rbW :=
  C1_put_postcondition rbW rbW_valid [1, 2, 3, 4] 2

/-- Claim C2: for every initialized ring buffer and every get call, the
returned count equals `min(requested_count, used(buffer))` at call time,
`tail` is advanced by exactly that count (in `uint32_t` arithmetic); in
particular reading from an empty buffer returns 0 and writing to a full
buffer returns 0. -/
theorem C2_get_postcondition (rb : ring_t) (hv : Valid rb) (dst : List Nat) (len : Nat) :
    (ring_get rb dst len).2.2 = min len (ring_used rb) ∧
    (ring_get rb dst len).1.tail = (rb.tail + (ring_get rb dst len).2.2) % U32 ∧
    (ring_get rb dst len).2.2 ≤ len ∧
    (ring_get rb dst len).2.2 ≤ ring_used rb ∧
    (ring_used rb = 0 → (ring_get rb dst len).2.2 = 0) ∧
    (ring_space rb = 0 → ∀ src, (ring_put rb src len).2 = 0) := by
  refine ⟨Nat.min_comm _ _, rfl, Nat.min_le_right _ _, Nat.min_le_left _ _, ?_, ?_⟩
  · intro h
    rw [ring_get_count, h, Nat.zero_min]
  · intro h src
    rw [ring_put_count, h, Nat.min_zero]

theorem C2_get_postcondition_witness :
    (ring_get rbW [0, 0] 1).2.2 = min 1 (ring_used rbW) ∧
    (ring_get rbW [0, 0] 1).1.tail = (rbW.tail + (ring_get rbW [0, 0] 1).2.2) % U32 ∧
    (ring_get rbW [0, 0] 1).2.2 ≤ 1 ∧
    (ring_get rbW [0, 0] 1).2.2 ≤ ring_used rbW ∧
    (ring_used rbW = 0 → (ring_get rbW [0, 0] 1).2.2 = 0) ∧
    (ring_space rbW = 0 → ∀ src, (ring_put rbW src 1).2 = 0) :=
  C2_get_postcondition rbW rbW_valid [0, 0] 1

/-- Claim C9: a put with requested count 0 returns 0 and leaves the whole
ring state (head, tail, every byte of the region) unchanged; a get with
requested count 0 returns 0 and leaves the ring state and the destination
unchanged. -/
theorem C9_zero_requests (rb : ring_t) (hv : Valid rb) (src dst : List Nat) :
    (ring_put rb src 0).2 = 0 ∧ (ring_put rb src 0).1 = rb ∧
    (ring_get rb dst 0).2.2 = 0 ∧ (ring_get rb dst 0).1 = rb ∧
    (ring_get rb dst 0).2.1 = dst := by
  refine ⟨by rw [ring_put_count]; exact Nat.zero_min _, ?_, by
    rw [ring_get_count]; exact Nat.min_zero _, ?_, ?_⟩
  · ext
    · rw [ring_put_buffer, Nat.zero_min, put_len_zero]
    · rw [ring_put_size]
    · rw [ring_put_mask]
    · rw [ring_put_esize]
    · rw [ring_put_head, Nat.zero_min, Nat.add_zero, Nat.mod_eq_of_lt hv.head_lt]
    · rw [ring_put_tail]
  · ext
    · rw [ring_get_buffer]
    · rw [ring_get_size]
    · rw [ring_get_mask]
    · rw [ring_get_esize]
    · rw [ring_get_head]
    · rw [ring_get_tail, Nat.min_zero, Nat.add_zero, Nat.mod_eq_of_lt hv.tail_lt]
  · rw [ring_get_out, Nat.min_zero, get_len_zero]

theorem C9_zero_requests_witness :
    (ring_put rbW [9] 0).2 = 0 ∧ (ring_put rbW [9] 0).1 = rbW ∧
    (ring_get rbW [7] 0).2.2 = 0 ∧ (ring_get rbW [7] 0).1 = rbW ∧
    (ring_get rbW [7] 0).2.1 = [7] :=
  C9_zero_requests rbW rbW_valid [9] [7]

/-- Claim C4: for every successfully initialized buffer (the computed
capacity is a power of two `≥ 2`) and every sequence of put and get calls,
`head - tail` (unsigned subtraction) stays between 0 and the capacity in
every reachable state, and consequently `space() + used() = capacity`
before and after every call. -/
theorem C4_invariant_reachable (rb0 : ring_t) (buf : List Nat) (s e : Nat)
    (he : 1 ≤ e) (hs : s < U32) (hbuf : s ≤ buf.length)
    (hok : (ring_buffer_init rb0 buf s e).2 = 0) (ops : List Op) :
    ring_used (run (ring_buffer_init rb0 buf s e).1 ops) ≤
      (run (ring_buffer_init rb0 buf s e).1 ops).size ∧
    ring_space (run (ring_buffer_init rb0 buf s e).1 ops) +
      ring_used (run (ring_buffer_init rb0 buf s e).1 ops) =
      (run (ring_buffer_init rb0 buf s e).1 ops).size := by
  have hv := valid_run _ (init_valid rb0 buf s e he hs hbuf hok) ops
  exact ⟨hv.used_le, space_add_used hv⟩

theorem C4_invariant_reachable_witness :
    ring_used (run (ring_buffer_init rbJunk (List.replicate 8 0) 8 2).1
        [Op.put [1, 2, 3, 4] 2, Op.get 1, Op.put [5, 6] 1]) ≤
      (run (ring_buffer_init rbJunk (List.replicate 8 0) 8 2).1
        [Op.put [1, 2, 3, 4] 2, Op.get 1, Op.put [5, 6] 1]).size ∧
    ring_space (run (ring_buffer_init rbJunk (List.replicate 8 0) 8 2).1
        [Op.put [1, 2, 3, 4] 2, Op.get 1, Op.put [5, 6] 1]) +
      ring_used (run (ring_buffer_init rbJunk (List.replicate 8 0) 8 2).1
        [Op.put [1, 2, 3, 4] 2, Op.get 1, Op.put [5, 6] 1]) =
      (run (ring_buffer_init rbJunk (List.replicate 8 0) 8 2).1
        [Op.put [1, 2, 3, 4] 2, Op.get 1, Op.put [5, 6] 1]).size :=
  C4_invariant_reachable rbJunk (List.replicate 8 0) 8 2 (by decide) (by decide)
    (by decide) (by decide) [Op.put [1, 2, 3, 4] 2, Op.get 1, Op.put [5, 6] 1]

theorem init_ret_cases (rb0 : ring_t) (buf : List Nat) (s e : Nat) :
    (ring_buffer_init rb0 buf s e).2 = 0 ∨ (ring_buffer_init rb0 buf s e).2 = -22 := by
  unfold ring_buffer_init
  by_cases h1 : s / e &&& (s / e - 1) ≠ 0
  · rw [if_pos h1]
    exact Or.inr rfl
  · rw [if_neg h1]
    by_cases h2 : s / e < 2
    · rw [if_pos h2]
      exact Or.inr rfl
    · rw [if_neg h2]
      exact Or.inl rfl

/-- Claim C6: initialization fails with `-EINVAL` exactly when
`capacity = region_size / esize` (truncating division) is not a power of
two or is below 2; on success `head = tail = 0`, `mask = capacity - 1`,
and the stored capacity equals the computed one. -/
theorem C6_init_invalid_capacity (rb0 : ring_t) (buf : List Nat) (s e : Nat) :
    ((ring_buffer_init rb0 buf s e).2 = -22 ↔
      ¬ (∃ k, s / e = 2 ^ k) ∨ s / e < 2) ∧
    ((ring_buffer_init rb0 buf s e).2 = 0 →
      (ring_buffer_init rb0 buf s e).1.head = 0 ∧
      (ring_buffer_init rb0 buf s e).1.tail = 0 ∧
      (ring_buffer_init rb0 buf s e).1.mask = s / e - 1 ∧
      (ring_buffer_init rb0 buf s e).1.size = s / e ∧
      (ring_buffer_init rb0 buf s e).1.esize = e) := by
  constructor
  · rw [iff_comm]
    have hok := init_ok_iff rb0 buf s e
    have hcases := init_ret_cases rb0 buf s e
    constructor
    · intro h
      rcases hcases with h0 | h22
      · rcases h with hnp | hlt
        · exact absurd (hok.1 h0).1 hnp
        · have := (hok.1 h0).2
          omega
      · exact h22
    · intro h22
      by_contra hcon
      push_neg at hcon
      obtain ⟨hp, hge⟩ := hcon
      have h0 := hok.2 ⟨hp, by omega⟩
      rw [h0] at h22
      exact absurd h22 (by norm_num)
  · intro hok
    rw [init_ok_state rb0 buf s e hok]
    exact ⟨rfl, rfl, rfl, rfl, rfl⟩

theorem C6_init_invalid_capacity_witness :
    (((ring_buffer_init rbJunk [] 3 1).2 = -22 ↔
        ¬ (∃ k, 3 / 1 = 2 ^ k) ∨ 3 / 1 < 2) ∧
      ((ring_buffer_init rbJunk [] 3 1).2 = 0 →
        (ring_buffer_init rbJunk [] 3 1).1.head = 0 ∧
        (ring_buffer_init rbJunk [] 3 1).1.tail = 0 ∧
        (ring_buffer_init rbJunk [] 3 1).1.mask = 3 / 1 - 1 ∧
        (ring_buffer_init rbJunk [] 3 1).1.size = 3 / 1 ∧
        (ring_buffer_init rbJunk [] 3 1).1.esize = 1)) ∧
    (((ring_buffer_init rbJunk (List.replicate 8 0) 8 2).2 = -22 ↔
        ¬ (∃ k, 8 / 2 = 2 ^ k) ∨ 8 / 2 < 2) ∧
      ((ring_buffer_init rbJunk (List.replicate 8 0) 8 2).2 = 0 →
        (ring_buffer_init rbJunk (List.replicate 8 0) 8 2).1.head = 0 ∧
        (ring_buffer_init rbJunk (List.replicate 8 0) 8 2).1.tail = 0 ∧
        (ring_buffer_init rbJunk (List.replicate 8 0) 8 2).1.mask = 8 / 2 - 1 ∧
        (ring_buffer_init rbJunk (List.replicate 8 0) 8 2).1.size = 8 / 2 ∧
        (ring_buffer_init rbJunk (List.replicate 8 0) 8 2).1.esize = 2)) :=
  ⟨C6_init_invalid_capacity rbJunk [] 3 1,
   C6_init_invalid_capacity rbJunk (List.replicate 8 0) 8 2⟩

/-- Claim C10: for every valid buffer and every put or get call, the two
copy segments computed by the shared split-copy prologue stay in bounds:
the first segment `l` ends at or before the end of the scaled region, the
wrapped remainder `len - l` ends at or before the offset, and the region
itself fits inside the backing storage. -/
theorem C10_copy_in_bounds (rb : ring_t) (hv : Valid rb) (len : Nat) :
    (∀ c ∈ [copySegs rb (min len (ring_space rb)) rb.head,
            copySegs rb (min (ring_used rb) len) rb.tail],
      c.2.1 = min c.2.2 (rb.size * rb.esize - c.1) ∧
      c.1 + c.2.1 ≤ rb.size * rb.esize ∧
      c.2.2 - c.2.1 ≤ c.1 ∧
      c.2.2 ≤ rb.size * rb.esize) ∧
    rb.size * rb.esize ≤ rb.buffer.length := by
  refine ⟨?_, hv.buf_len⟩
  have hput : min len (ring_space rb) ≤ rb.size :=
    le_trans (Nat.min_le_right _ _) (ring_space_le hv)
  have hget : min (ring_used rb) len ≤ rb.size :=
    le_trans (Nat.min_le_left _ _) hv.used_le
  intro c hc
  simp only [List.mem_cons, List.mem_singleton, List.not_mem_nil, or_false] at hc
  rcases hc with rfl | rfl
  · have hb := copySegs_bounds rb hv (min len (ring_space rb)) rb.head hput
    have he := copySegs_eq rb hv (min len (ring_space rb)) rb.head hput
    refine ⟨?_, hb.1, hb.2.1, hb.2.2.2.2⟩
    rw [he]
  · have hb := copySegs_bounds rb hv (min (ring_used rb) len) rb.tail hget
    have he := copySegs_eq rb hv (min (ring_used rb) len) rb.tail hget
    refine ⟨?_, hb.1, hb.2.1, hb.2.2.2.2⟩
    rw [he]

theorem C10_copy_in_bounds_witness :
    (∀ c ∈ [copySegs rbW (min 3 (ring_space rbW)) rbW.head,
            copySegs rbW (min (ring_used rbW) 3) rbW.tail],
      c.2.1 = min c.2.2 (rbW.size * rbW.esize - c.1) ∧
      c.1 + c.2.1 ≤ rbW.size * rbW.esize ∧
      c.2.2 - c.2.1 ≤ c.1 ∧
      c.2.2 ≤ rbW.size * rbW.esize) ∧
    rbW.size * rbW.esize ≤ rbW.buffer.length :=
  C10_copy_in_bounds rbW rbW_valid 3

/-- Claim C7, counterexample: a failing initialization with a computed
capacity of 3 elements (not a power of two) returns before touching the
struct, so a pre-existing `mask = 5` survives — the buffer is NOT left with
`mask = 0` on this failure path. -/
theorem C7_counterexample :
    (ring_buffer_init rbJunk [] 3 1).2 ≠ 0 ∧
    (ring_buffer_init rbJunk [] 3 1).1.mask = 5 := by decide

/-- Claim C7, amended: on a failing initialization, if the computed
capacity is below 2 the buffer is left with `mask = 0` (and
`head = tail = 0`); if the computed capacity is 2 or more (failure because
it is not a power of two), the struct is left entirely unmodified. -/
theorem C7_failure_state (rb0 : ring_t) (buf : List Nat) (s e : Nat)
    (hfail : (ring_buffer_init rb0 buf s e).2 ≠ 0) :
    (s / e < 2 →
      (ring_buffer_init rb0 buf s e).1.mask = 0 ∧
      (ring_buffer_init rb0 buf s e).1.head = 0 ∧
      (ring_buffer_init rb0 buf s e).1.tail = 0) ∧
    (2 ≤ s / e → (ring_buffer_init rb0 buf s e).1 = rb0) := by
  unfold ring_buffer_init at hfail ⊢
  by_cases h1 : s / e &&& (s / e - 1) ≠ 0
  · rw [if_pos h1] at hfail ⊢
    constructor
    · intro hlt
      exfalso
      have h2 : s / e = 0 ∨ s / e = 1 :=
        Nat.le_one_iff_eq_zero_or_eq_one.mp (Nat.lt_succ_iff.mp hlt)
      rcases h2 with h2 | h2 <;> rw [h2] at h1 <;> exact h1 (by decide)
    · intro _
      rfl
  · rw [if_neg h1] at hfail ⊢
    by_cases h2 : s / e < 2
    · rw [if_pos h2] at hfail ⊢
      exact ⟨fun _ => ⟨rfl, rfl, rfl⟩, fun h => absurd h2 (by omega)⟩
    · rw [if_neg h2] at hfail ⊢
      exact absurd rfl hfail

theorem C7_failure_state_witness :
    ((3 / 1 < 2 →
        (ring_buffer_init rbJunk [] 3 1).1.mask = 0 ∧
        (ring_buffer_init rbJunk [] 3 1).1.head = 0 ∧
        (ring_buffer_init rbJunk [] 3 1).1.tail = 0) ∧
      (2 ≤ 3 / 1 → (ring_buffer_init rbJunk [] 3 1).1 = rbJunk)) ∧
    ((2 / 2 < 2 →
        (ring_buffer_init rbJunk [] 2 2).1.mask = 0 ∧
        (ring_buffer_init rbJunk [] 2 2).1.head = 0 ∧
        (ring_buffer_init rbJunk [] 2 2).1.tail = 0) ∧
      (2 ≤ 2 / 2 → (ring_buffer_init rbJunk [] 2 2).1 = rbJunk)) :=
  ⟨C7_failure_state rbJunk [] 3 1 (by decide),
   C7_failure_state rbJunk [] 2 2 (by decide)⟩

/-- Masking a `uint32_t`-reduced logical index with `mask = size - 1` gives
the index modulo the capacity: correct physical slot even across the
`uint32_t` overflow boundary. -/
theorem mask_mod {rb : ring_t} (hv : Valid rb) (x : Nat) :
    (x % U32) &&& rb.mask = x % rb.size := by
  obtain ⟨k, hk⟩ := hv.size_pow2
  have hklt : k < 32 := by
    have h1 : 2 ^ k < 2 ^ 32 := by rw [← hk, ← U32_eq]; exact size_lt_U32 hv
    exact (Nat.pow_lt_pow_iff_right (by norm_num)).1 h1
  rw [hv.mask_eq, hk, Nat.and_pow_two_sub_one_eq_mod, U32_eq,
      Nat.mod_mod_of_dvd _ (pow_dvd_pow 2 (le_of_lt hklt))]

/-- Claim C5: `head` and `tail` are `uint32_t` counters wrapping modulo
`2^32`.  For any unbounded logical counters `H ≥ T` with at most `size`
elements stored, the state with `head = H mod 2^32`, `tail = T mod 2^32`
still reports `used = H - T` and `space = size - (H - T)` through the
wraparound subtraction, `index & mask` still addresses the slot
`index mod size`, and the put/get return-count postconditions hold exactly
as in the non-overflow case. -/
theorem C5_overflow_correct (rb : ring_t) (hv : Valid rb) (H T : Nat)
    (hH : rb.head = H % U32) (hT : rb.tail = T % U32)
    (hTH : T ≤ H) (hcount : H - T ≤ rb.size) (src : List Nat) (len : Nat) :
    ring_used rb = H - T ∧
    ring_space rb = rb.size - (H - T) ∧
    rb.head &&& rb.mask = H % rb.size ∧
    rb.tail &&& rb.mask = T % rb.size ∧
    (ring_put rb src len).2 = min len (rb.size - (H - T)) ∧
    (∀ dst, (ring_get rb dst len).2.2 = min (H - T) len) := by
  have hszlt := size_lt_U32 hv
  have hused : ring_used rb = H - T := by
    rw [ring_used, hH, hT]
    simp only [sub32, U32] at *
    omega
  have hspace : ring_space rb = rb.size - (H - T) := by
    rw [ring_space_eq hv, hused]
  refine ⟨hused, hspace, ?_, ?_, ?_, ?_⟩
  · rw [hH, mask_mod hv]
  · rw [hT, mask_mod hv]
  · rw [ring_put_count, hspace]
  · intro dst
    rw [ring_get_count, hused]

theorem C5_overflow_correct_witness :
    ring_used rbOverW = 4294967298 - 4294967295 ∧
    ring_space rbOverW = rbOverW.size - (4294967298 - 4294967295) ∧
    rbOverW.head &&& rbOverW.mask = 4294967298 % rbOverW.size ∧
    rbOverW.tail &&& rbOverW.mask = 4294967295 % rbOverW.size ∧
    (ring_put rbOverW [1, 2] 2).2 = min 2 (rbOverW.size - (4294967298 - 4294967295)) ∧
    (∀ dst, (ring_get rbOverW dst 2).2.2 = min (4294967298 - 4294967295) 2) :=
  C5_overflow_correct rbOverW rbOverW_valid 4294967298 4294967295
    (by decide) (by decide) (by decide) (by decide) [1, 2] 2

/-- Claim C8: put never modifies `tail` (nor size/mask/esize) and its byte
side effects are confined to the physical window `[head, head+count)`
(elements, taken mod capacity; here expressed byte-wise, as positions
`(head_offset_bytes + j) mod region_bytes` for `j < count * esize`);
get never modifies `head` and never modifies any byte of the region. -/
theorem C8_frame_conditions (rb : ring_t) (hv : Valid rb) (src dst : List Nat) (len : Nat) :
    (ring_put rb src len).1.tail = rb.tail ∧
    (ring_put rb src len).1.size = rb.size ∧
    (ring_put rb src len).1.mask = rb.mask ∧
    (ring_put rb src len).1.esize = rb.esize ∧
    (∀ p, p < rb.buffer.length →
      (∀ j, j < min len (ring_space rb) * rb.esize →
        p ≠ ((rb.head &&& rb.mask) * rb.esize + j) % (rb.size * rb.esize)) →
      (ring_put rb src len).1.buffer.getD p 0 = rb.buffer.getD p 0) ∧
    (ring_get rb dst len).1.head = rb.head ∧
    (ring_get rb dst len).1.buffer = rb.buffer := by
  refine ⟨rfl, rfl, rfl, rfl, ?_, rfl, rfl⟩
  intro p hp H
  have hlen' : min len (ring_space rb) ≤ rb.size :=
    le_trans (Nat.min_le_right _ _) (ring_space_le hv)
  rw [ring_put_buffer, getD_put_buffer rb hv src _ rb.head hlen' hp]
  have hmask : (rb.head &&& rb.mask) + 1 ≤ rb.size := by
    have h1 : rb.head &&& rb.mask ≤ rb.mask := Nat.and_le_right
    have h2 := hv.mask_eq
    have h3 := hv.two_le_size
    omega
  have hoB : (rb.head &&& rb.mask) * rb.esize + rb.esize ≤ rb.size * rb.esize := by
    have := mul_le_mul_right' hmask rb.esize
    rwa [Nat.succ_mul] at this
  have hlenle : min len (ring_space rb) * rb.esize ≤ rb.size * rb.esize :=
    mul_le_mul_right' hlen' _
  have hesize := hv.esize_pos
  set o := (rb.head &&& rb.mask) * rb.esize with ho
  set sB := rb.size * rb.esize with hsB
  set lenB := min len (ring_space rb) * rb.esize with hlenB
  set l := min lenB (sB - o) with hl
  have hA : ¬ p < lenB - l := by
    intro hcon
    refine H (l + p) (by omega) ?_
    have heq : o + (l + p) = sB + p := by omega
    rw [heq, Nat.add_mod_left, Nat.mod_eq_of_lt (by omega)]
  have hB : ¬ (o ≤ p ∧ p < o + l) := by
    rintro ⟨h1, h2⟩
    refine H (p - o) (by omega) ?_
    have heq : o + (p - o) = p := by omega
    rw [heq, Nat.mod_eq_of_lt (by omega)]
  rw [if_neg hA, if_neg hB]

theorem C8_frame_conditions_witness :
    (ring_put rbW [1, 2] 1).1.tail = rbW.tail ∧
    (ring_put rbW [1, 2] 1).1.size = rbW.size ∧
    (ring_put rbW [1, 2] 1).1.mask = rbW.mask ∧
    (ring_put rbW [1, 2] 1).1.esize = rbW.esize ∧
    (∀ p, p < rbW.buffer.length →
      (∀ j, j < min 1 (ring_space rbW) * rbW.esize →
        p ≠ ((rbW.head &&& rbW.mask) * rbW.esize + j) % (rbW.size * rbW.esize)) →
      (ring_put rbW [1, 2] 1).1.buffer.getD p 0 = rbW.buffer.getD p 0) ∧
    (ring_get rbW [0, 0] 1).1.head = rbW.head ∧
    (ring_get rbW [0, 0] 1).1.buffer = rbW.buffer :=
  C8_frame_conditions rbW rbW_valid [1, 2] [0, 0] 1

/-- Claim C3: writing a batch of at most `capacity` elements into an empty
buffer and immediately reading the same count back reproduces exactly the
written bytes in order, including when the copy wraps around the end of
the backing region. -/
theorem C3_fifo_roundtrip (rb : ring_t) (hv : Valid rb) (src dst : List Nat) (k : Nat)
    (hempty : ring_used rb = 0) (hk : k ≤ rb.size)
    (hsrc : src.length = k * rb.esize) (hdst : dst.length = k * rb.esize) :
    (ring_put rb src k).2 = k ∧
    (ring_get (ring_put rb src k).1 dst k).2.2 = k ∧
    (ring_get (ring_put rb src k).1 dst k).2.1 = src := by
  have hszlt := size_lt_U32 hv
  have hspace : ring_space rb = rb.size := by
    have h := space_add_used hv
    omega
  have hcnt : min k (ring_space rb) = k := by
    rw [hspace]
    exact Nat.min_eq_left hk
  have hht : rb.head = rb.tail := by
    have h1 := hv.head_lt
    have h2 := hv.tail_lt
    simp only [ring_used, sub32, U32] at hempty h1 h2
    omega
  have hv1 : Valid (ring_put rb src k).1 := valid_put rb hv src k
  have hused1 : ring_used (ring_put rb src k).1 = k := by
    rw [used_after_put rb hv src k, hempty, hcnt, Nat.zero_add]
  refine ⟨by rw [ring_put_count, hcnt], by rw [ring_get_count, hused1, Nat.min_self], ?_⟩
  rw [ring_get_out, hused1, Nat.min_self]
  have hmask : (rb.head &&& rb.mask) + 1 ≤ rb.size := by
    have h1 : rb.head &&& rb.mask ≤ rb.mask := Nat.and_le_right
    have h2 := hv.mask_eq
    have h3 := hv.two_le_size
    omega
  have hoB : (rb.head &&& rb.mask) * rb.esize + rb.esize ≤ rb.size * rb.esize := by
    have h := mul_le_mul_right' hmask rb.esize
    rwa [Nat.succ_mul] at h
  have hlenle : k * rb.esize ≤ rb.size * rb.esize := mul_le_mul_right' hk _
  have hesize := hv.esize_pos
  have hbuf := hv.buf_len
  apply eq_of_getD_eq
  · rw [get_output_length, hdst, hsrc]
  · intro p hplen
    rw [get_output_length] at hplen
    have hpB : p < k * rb.esize := by rw [← hdst]; exact hplen
    rw [getD_get_output _ hv1 dst k _ hk hplen]
    simp only [ring_put_size, ring_put_esize, ring_put_mask, ring_put_tail,
      ring_put_buffer, hcnt]
    rw [← hht]
    rcases Nat.lt_or_ge p
        (min (k * rb.esize)
          (rb.size * rb.esize - (rb.head &&& rb.mask) * rb.esize)) with hpl | hpl
    · rw [if_neg (by omega), if_pos hpl,
        getD_put_buffer rb hv src k rb.head hk (by omega),
        if_neg (by omega), if_pos ⟨by omega, by omega⟩, Nat.add_sub_cancel_left]
    · have heq : min (k * rb.esize)
          (rb.size * rb.esize - (rb.head &&& rb.mask) * rb.esize) +
          (p - min (k * rb.esize)
            (rb.size * rb.esize - (rb.head &&& rb.mask) * rb.esize)) = p := by omega
      rw [if_pos ⟨hpl, by omega⟩,
        getD_put_buffer rb hv src k rb.head hk (by omega),
        if_pos (by omega), heq]

theorem C3_fifo_roundtrip_witness :
    (ring_put rbWrapW [1, 2, 3, 4, 5, 6] 3).2 = 3 ∧
    (ring_get (ring_put rbWrapW [1, 2, 3, 4, 5, 6] 3).1 [0, 0, 0, 0, 0, 0] 3).2.2 = 3 ∧
    (ring_get (ring_put rbWrapW [1, 2, 3, 4, 5, 6] 3).1 [0, 0, 0, 0, 0, 0] 3).2.1 =
      [1, 2, 3, 4, 5, 6] :=
  C3_fifo_roundtrip rbWrapW rbWrapW_valid [1, 2, 3, 4, 5, 6] [0, 0, 0, 0, 0, 0] 3
    (by decide) (by decide) (by decide) (by decide)
